import Mathlib

/-!
Verification of the cFair kernel-based HGR estimator against its design
specification.  Definitions are shallow embeddings of the Python source in
`src/cfair/hgr/kernel.py` and `src/cfair/indicators/indicator.py`; external
numeric routines (the scipy QR factorization, the scipy minimizer, the numeric
backend) are treated as collaborators: computations that the source performs
itself are embedded faithfully, while values produced by the collaborators
(QR diagonal entries, solver outputs, sub-computation results) are universally
quantified parameters.
-/

namespace CFair

open Matrix

/-! ### Linear dependence detector (`KernelBasedHGR._get_linearly_independent`)

The source builds the augmented matrix `[1 | interleaved F,G columns]`, runs
`scipy.linalg.qr` (external collaborator) and takes `r = np.abs(np.diag(R))`.
The detection logic from that point on is embedded here as a function of the
list of diagonal entries belonging to one variable's kernel columns
(`r[f_indices]` resp. `r[g_indices]`), in column order `0 .. d-1`.

`flaggedIndices` embeds `np.arange(dx)[r[f_indices] <= self.delta]`: the
sorted list of column indices whose diagonal entry is at or below `delta`.
The list is indexed through `getD` with default `0`; the default is never
read because every filtered index is below `r.length`. -/
def flaggedIndices {α : Type} [LinearOrder α] [Zero α] (r : List α) (delta : α) : List ℕ :=
  (List.range r.length).filter (fun i => r.getD i 0 ≤ delta)

/-- Embeds the `[1:]` slice: `f_indices = np.arange(dx)[r[f_indices] <= self.delta][1:]`,
the list of column indices to be dropped (all flagged indices except the first
flagged one). -/
def removedIndices {α : Type} [LinearOrder α] [Zero α] (r : List α) (delta : α) : List ℕ :=
  (flaggedIndices r delta).drop 1

/-- Embeds `[idx for idx in range(dx) if idx not in f_indices]`: the retained
column indices for one variable. -/
def retainedIndices {α : Type} [LinearOrder α] [Zero α] (r : List α) (delta : α) : List ℕ :=
  (List.range r.length).filter (fun i => ¬ i ∈ removedIndices r delta)

/-- The retention rule as claim C2 words it: keep exactly the columns whose
diagonal entry exceeds `delta`, plus always column 0. -/
def claimRetainedIndices {α : Type} [LinearOrder α] [Zero α] (r : List α) (delta : α) : List ℕ :=
  (List.range r.length).filter (fun i => i = 0 ∨ delta < r.getD i 0)

/-- The flagged-index list is sorted strictly increasingly. -/
lemma flaggedIndices_sorted {α : Type} [LinearOrder α] [Zero α] (r : List α) (delta : α) :
    (flaggedIndices r delta).Sorted (· < ·) :=
  (List.pairwise_lt_range r.length).sublist (List.filter_sublist _)

/-- The flagged-index list has no duplicates. -/
lemma flaggedIndices_nodup {α : Type} [LinearOrder α] [Zero α] (r : List α) (delta : α) :
    (flaggedIndices r delta).Nodup :=
  (List.nodup_range r.length).filter _

/-- Membership in the flagged list, for indices below `r.length`. -/
lemma mem_flaggedIndices {α : Type} [LinearOrder α] [Zero α] {r : List α} {delta : α} {i : ℕ} :
    i ∈ flaggedIndices r delta ↔ i < r.length ∧ r.getD i 0 ≤ delta := by
  simp [flaggedIndices, List.mem_filter, List.mem_range]

/-- Index 0 is never dropped: if it is flagged it is the head of the sorted
flagged list, and the drop list omits the head. -/
lemma zero_not_mem_removedIndices {α : Type} [LinearOrder α] [Zero α] (r : List α) (delta : α) :
    ¬ 0 ∈ removedIndices r delta := by
  intro h
  unfold removedIndices at h
  rcases hf : flaggedIndices r delta with _ | ⟨x, xs⟩
  · rw [hf] at h
    simp at h
  · rw [hf] at h
    simp only [List.drop_succ_cons, List.drop_zero] at h
    have hs := flaggedIndices_sorted r delta
    rw [hf] at hs
    have hx : x < 0 := (List.pairwise_cons.mp hs).1 0 h
    exact Nat.not_lt_zero x hx

/-- Membership in the drop list: a flagged index is dropped unless it is the
first (head) flagged index. -/
lemma mem_removedIndices {α : Type} [LinearOrder α] [Zero α] {r : List α} {delta : α} {i : ℕ} :
    i ∈ removedIndices r delta ↔
      i ∈ flaggedIndices r delta ∧ ¬ (flaggedIndices r delta).head? = some i := by
  unfold removedIndices
  rcases hf : flaggedIndices r delta with _ | ⟨x, xs⟩
  · simp
  · have hnd := flaggedIndices_nodup r delta
    rw [hf] at hnd
    simp only [List.drop_succ_cons, List.drop_zero, List.head?_cons, List.mem_cons,
      Option.some.injEq]
    constructor
    · intro h
      refine ⟨Or.inr h, fun hxi => ?_⟩
      exact (List.nodup_cons.mp hnd).1 (hxi ▸ h)
    · rintro ⟨hmem | hmem, hne⟩
      · exact absurd hmem.symm hne
      · exact hmem

/-- The retention rule that the source actually implements: keep every column
whose diagonal entry exceeds `delta`, and additionally keep the smallest
flagged column index (the head of the flagged list), whichever column it is. -/
def actualRetainedIndices {α : Type} [LinearOrder α] [Zero α] (r : List α) (delta : α) : List ℕ :=
  (List.range r.length).filter
    (fun i => delta < r.getD i 0 ∨ (flaggedIndices r delta).head? = some i)

/-- Claim C2 (counterexample): with diagonal entries `[2, 2, 0, 0]` and
`delta = 1`, columns 2 and 3 are flagged but column 0 is not; the source drops
only column 3 and retains `[0, 1, 2]`, whereas the claim's rule (keep exactly
the entries above `delta`, plus index 0) would retain `[0, 1]`. -/
theorem retained_index0_exemption_cex :
    retainedIndices ([2, 2, 0, 0] : List ℕ) 1 ≠ claimRetainedIndices ([2, 2, 0, 0] : List ℕ) 1 := by
  decide

/-- Claim C2 (amended): for every list of diagonal entries and every `delta`,
the detector retains exactly the columns whose diagonal entry exceeds `delta`
together with the first flagged column (the smallest index whose entry is at
or below `delta`); every other flagged column is removed.  Index 0 is exempt
only when it is itself the first flagged column. -/
theorem retained_eq_first_flagged_exempt {α : Type} [LinearOrder α] [Zero α]
    (r : List α) (delta : α) :
    retainedIndices r delta = actualRetainedIndices r delta := by
  unfold retainedIndices actualRetainedIndices
  refine List.filter_congr (fun i hi => ?_)
  rw [List.mem_range] at hi
  refine decide_eq_decide.mpr ?_
  rw [mem_removedIndices, mem_flaggedIndices]
  constructor
  · intro h
    by_cases hle : r.getD i 0 ≤ delta
    · rcases not_and_or.mp h with h1 | h2
      · exact absurd ⟨hi, hle⟩ h1
      · exact Or.inr (not_not.mp h2)
    · exact Or.inl (lt_of_not_le hle)
  · rintro (hlt | hhead)
    · rintro ⟨⟨-, hle⟩, -⟩
      exact absurd hlt (not_lt_of_le hle)
    · rintro ⟨-, hne⟩
      exact hne hhead

/-- Claim C10: for every pair of diagonal-entry lists (one per variable, each
of length ≥ 1 since kernel degrees are ≥ 1) and every `delta`, both retained
index sets contain index 0, so neither retained set is empty. -/
theorem retained_contains_zero {α : Type} [LinearOrder α] [Zero α]
    (rF rG : List α) (delta : α) (hF : 1 ≤ rF.length) (hG : 1 ≤ rG.length) :
    (0 ∈ retainedIndices rF delta ∧ 0 ∈ retainedIndices rG delta) ∧
      retainedIndices rF delta ≠ [] ∧ retainedIndices rG delta ≠ [] := by
  have hmem : ∀ (r : List α), 1 ≤ r.length → 0 ∈ retainedIndices r delta := by
    intro r hr
    unfold retainedIndices
    rw [List.mem_filter, List.mem_range]
    exact ⟨hr, decide_eq_true (zero_not_mem_removedIndices r delta)⟩
  exact ⟨⟨hmem rF hF, hmem rG hG⟩,
    List.ne_nil_of_mem (hmem rF hF), List.ne_nil_of_mem (hmem rG hG)⟩

/-- Witness for `retained_contains_zero` at concrete diagonal entries over `ℕ`
(both first entries flagged, `delta = 5`). -/
theorem retained_contains_zero_witness :
    (0 ∈ retainedIndices ([0] : List ℕ) 5 ∧ 0 ∈ retainedIndices ([0, 0] : List ℕ) 5) ∧
      retainedIndices ([0] : List ℕ) 5 ≠ [] ∧ retainedIndices ([0, 0] : List ℕ) 5 ≠ [] :=
  retained_contains_zero [0] [0, 0] 5 (by decide) (by decide)

/-! ### Coefficient reconstruction (`KernelBasedHGR._higher_order_coefficients`,
lines 180-185)

The source reconstructs the full-length coefficient vectors from the solver's
output with `alpha = np.zeros(degree_x); alpha[f_indices] = s.x[:dx]` (and the
same for `beta`).  Fancy assignment at a list of indices is embedded as a left
fold of single-position writes over the index/value pairs. -/

/-- Sequential single-position writes, one per index/value pair. -/
def scatterFold {β : Type} (init : List β) (pairs : List (ℕ × β)) : List β :=
  pairs.foldl (fun acc p => acc.set p.1 p.2) init

/-- Embeds `full = np.zeros(deg); full[idxs] = vals`. -/
def scatter {β : Type} [Zero β] (deg : ℕ) (idxs : List ℕ) (vals : List β) : List β :=
  scatterFold (List.replicate deg 0) (idxs.zip vals)

lemma scatterFold_cons {β : Type} (init : List β) (p : ℕ × β) (ps : List (ℕ × β)) :
    scatterFold init (p :: ps) = scatterFold (init.set p.1 p.2) ps := rfl

lemma scatterFold_length {β : Type} (pairs : List (ℕ × β)) (init : List β) :
    (scatterFold init pairs).length = init.length := by
  induction pairs generalizing init with
  | nil => rfl
  | cons p ps ih =>
    unfold scatterFold at ih ⊢
    rw [List.foldl_cons, ih, List.length_set]

lemma scatterFold_getD_not_mem {β : Type} (pairs : List (ℕ × β)) (i : ℕ)
    (init : List β) (d : β) (h : ¬ i ∈ pairs.map Prod.fst) :
    (scatterFold init pairs).getD i d = init.getD i d := by
  induction pairs generalizing init with
  | nil => rfl
  | cons p ps ih =>
    rw [List.map_cons, List.mem_cons, not_or] at h
    unfold scatterFold
    rw [List.foldl_cons]
    have := ih (init.set p.1 p.2) h.2
    unfold scatterFold at this
    rw [this, List.getD_eq_getElem?_getD, List.getD_eq_getElem?_getD,
      List.getElem?_set_ne (fun hpi => h.1 hpi.symm)]

lemma scatterFold_getD_nth {β : Type} {pairs : List (ℕ × β)}
    (hnd : (pairs.map Prod.fst).Nodup) (init : List β) (d : β) (k : ℕ)
    (hk : k < pairs.length) (hlt : (pairs.get ⟨k, hk⟩).1 < init.length) :
    (scatterFold init pairs).getD (pairs.get ⟨k, hk⟩).1 d = (pairs.get ⟨k, hk⟩).2 := by
  induction pairs generalizing init k with
  | nil => exact absurd hk (Nat.not_lt_zero k)
  | cons p ps ih =>
    rw [List.map_cons, List.nodup_cons] at hnd
    match k with
    | 0 =>
      simp only [List.get] at hlt ⊢
      rw [scatterFold_cons]
      have hrest := scatterFold_getD_not_mem ps p.1 (init.set p.1 p.2) d hnd.1
      rw [hrest, List.getD_eq_getElem?_getD, List.getElem?_set_self hlt, Option.getD_some]
    | k + 1 =>
      simp only [List.get] at hlt ⊢
      rw [scatterFold_cons]
      exact ih hnd.2 (init.set p.1 p.2) k (Nat.lt_of_succ_lt_succ hk)
        (by rw [List.length_set]; exact hlt)

/-- The retained-index list has no duplicates. -/
lemma retainedIndices_nodup {α : Type} [LinearOrder α] [Zero α] (r : List α) (delta : α) :
    (retainedIndices r delta).Nodup :=
  (List.nodup_range r.length).filter _

/-- Every retained index is below the number of columns. -/
lemma retainedIndices_lt {α : Type} [LinearOrder α] [Zero α] {r : List α} {delta : α} {i : ℕ}
    (h : i ∈ retainedIndices r delta) : i < r.length := by
  unfold retainedIndices at h
  exact List.mem_range.mp (List.mem_filter.mp h).1

/-- A removed index is never retained. -/
lemma removed_not_retained {α : Type} [LinearOrder α] [Zero α] {r : List α} {delta : α} {i : ℕ}
    (h : i ∈ removedIndices r delta) : ¬ i ∈ retainedIndices r delta := by
  intro hret
  unfold retainedIndices at hret
  exact of_decide_eq_true (List.mem_filter.mp hret).2 h

/-- Claim C7: the reconstructed full-length coefficient vector has the length
of the original kernel (the degree), holds the solver's values exactly at the
retained column indices (in order), and is exactly zero at every index the
dependence detector removed.  Instantiating `r` with the diagonal entries of
either variable covers both `alpha` and `beta`. -/
theorem coefficients_scatter_zero_on_removed {α β : Type} [LinearOrder α] [Zero α] [Zero β]
    (r : List α) (delta : α) (vals : List β)
    (hlen : vals.length = (retainedIndices r delta).length) :
    (scatter r.length (retainedIndices r delta) vals).length = r.length ∧
      (∀ k, k < (retainedIndices r delta).length →
        (scatter r.length (retainedIndices r delta) vals).getD
          ((retainedIndices r delta).getD k 0) 0 = vals.getD k 0) ∧
      (∀ i, i ∈ removedIndices r delta →
        (scatter r.length (retainedIndices r delta) vals).getD i 0 = 0) := by
  set idxs := retainedIndices r delta with hidxs
  have hmapfst : (idxs.zip vals).map Prod.fst = idxs :=
    List.map_fst_zip idxs vals (le_of_eq hlen.symm)
  refine ⟨?_, ?_, ?_⟩
  · unfold scatter
    rw [scatterFold_length, List.length_replicate]
  · intro k hk
    have hvk : k < vals.length := by omega
    have hkzip : k < (idxs.zip vals).length := by
      rw [List.length_zip]; omega
    have hget : (idxs.zip vals)[k] = (idxs[k], vals[k]) := List.getElem_zip
    have hnd : ((idxs.zip vals).map Prod.fst).Nodup := by
      rw [hmapfst]; exact retainedIndices_nodup r delta
    have hlt : ((idxs.zip vals).get ⟨k, hkzip⟩).1 < (List.replicate r.length (0 : β)).length := by
      rw [List.get_eq_getElem, hget, List.length_replicate]
      exact retainedIndices_lt (idxs.getElem_mem hk)
    have hmain := scatterFold_getD_nth hnd (List.replicate r.length (0 : β)) 0 k hkzip hlt
    rw [List.get_eq_getElem, hget] at hmain
    unfold scatter
    rw [List.getD_eq_getElem?_getD idxs, List.getElem?_eq_getElem hk, Option.getD_some,
      List.getD_eq_getElem?_getD vals, List.getElem?_eq_getElem hvk, Option.getD_some]
    exact hmain
  · intro i hrem
    have hnotmem : ¬ i ∈ (idxs.zip vals).map Prod.fst := by
      rw [hmapfst]
      exact removed_not_retained hrem
    unfold scatter
    rw [scatterFold_getD_not_mem _ _ _ _ hnotmem, List.getD_eq_getElem?_getD,
      List.getElem?_replicate]
    split <;> rfl

/-- Witness for `coefficients_scatter_zero_on_removed`: diagonal entries
`[2, 2, 0, 0]` with `delta = 1` retain columns `[0, 1, 2]` and remove column 3;
scattering the solver values `[5, 6, 7]` puts value 7 at column 2 and zero at
column 3. -/
theorem coefficients_scatter_zero_on_removed_witness :
    (scatter ([2, 2, 0, 0] : List ℕ).length (retainedIndices ([2, 2, 0, 0] : List ℕ) 1)
        ([5, 6, 7] : List ℕ)).getD ((retainedIndices ([2, 2, 0, 0] : List ℕ) 1).getD 2 0) 0 =
        ([5, 6, 7] : List ℕ).getD 2 0 ∧
      (scatter ([2, 2, 0, 0] : List ℕ).length (retainedIndices ([2, 2, 0, 0] : List ℕ) 1)
        ([5, 6, 7] : List ℕ)).getD 3 0 = 0 := by
  have h := coefficients_scatter_zero_on_removed ([2, 2, 0, 0] : List ℕ) 1
    ([5, 6, 7] : List ℕ) (by decide)
  exact ⟨h.2.1 2 (by decide), h.2.2 3 (by decide)⟩

/-! ### Single-Kernel selection (`SingleKernelHGR._compute`, lines 260-285)

`SingleKernelHGR._compute` makes two sub-computations
`res_a = self._kbhgr(a, b, degree_a=degree)` (the "a non-linear" branch, with
`degree_b = 1`) and `res_b = self._kbhgr(a, b, degree_b=degree)` (the "b
non-linear" branch, with `degree_a = 1`), then combines their results.  The
two branch results are parameters here; the combination logic is embedded. -/

/-- The fields of a `KernelBasedHGR.Result` that the selection step reads and
produces: the scalar correlation and the two coefficient vectors. -/
structure KBRes (α : Type) where
  correlation : α
  alpha : List α
  beta : List α

/-- Embeds `v = backend.zeros(degree); v[0] = w[0]`: a zero vector of length
`degree` whose first entry is the first entry of `w`. -/
def zeroExceptFirst {α : Type} [Zero α] (degree : ℕ) (w : List α) : List α :=
  (List.replicate degree (0 : α)).set 0 (w.getD 0 0)

/-- Embeds the branch-combination logic of `SingleKernelHGR._compute`:
`correlation = backend.maximum(cor_a, cor_b)`; `if cor_a > cor_b` keep
`res_a.alpha` and zero `beta` except its first entry (taken from `res_a.beta`),
otherwise keep `res_b.beta` and zero `alpha` except its first entry (taken
from `res_b.alpha`). -/
def singleKernelSelect {α : Type} [LinearOrder α] [Zero α]
    (degree : ℕ) (resA resB : KBRes α) : KBRes α :=
  if resB.correlation < resA.correlation then
    { correlation := max resA.correlation resB.correlation,
      alpha := resA.alpha,
      beta := zeroExceptFirst degree resA.beta }
  else
    { correlation := max resA.correlation resB.correlation,
      alpha := zeroExceptFirst degree resB.alpha,
      beta := resB.beta }

lemma zeroExceptFirst_getD_of_pos {α : Type} [Zero α] (degree : ℕ) (w : List α)
    {i : ℕ} (hi : 1 ≤ i) : (zeroExceptFirst degree w).getD i 0 = 0 := by
  unfold zeroExceptFirst
  rw [List.getD_eq_getElem?_getD, List.getElem?_set_ne (by omega), List.getElem?_replicate]
  split <;> rfl

/-- Claim C1 (counterexample): with tied branch correlations (both 5) the
source takes the `else` branch, so the returned coefficient vectors are those
of the second computed ("b non-linear") branch, not the first: `alpha` becomes
`[2, 0]` (zeroed except entry 0, taken from the b-branch) instead of the
a-branch's full `[1, 1]`. -/
theorem singleKernel_tie_first_branch_cex :
    ¬ ((singleKernelSelect 2 ⟨5, [1, 1], [7]⟩ ⟨5, [2], [3, 4]⟩ : KBRes ℕ).alpha =
          (⟨5, [1, 1], [7]⟩ : KBRes ℕ).alpha ∧
        (singleKernelSelect 2 ⟨5, [1, 1], [7]⟩ ⟨5, [2], [3, 4]⟩ : KBRes ℕ).beta =
          zeroExceptFirst 2 (⟨5, [1, 1], [7]⟩ : KBRes ℕ).beta) := by
  decide

/-- Claim C1 (amended): when the two branch correlations are exactly equal,
the returned Result carries the coefficient vectors of the *second* computed
("b non-linear") branch: `beta` equals that branch's full beta, `alpha` is its
zeroed-except-index-0 vector, and the correlation is the common value. -/
theorem singleKernel_tie_second_branch {α : Type} [LinearOrder α] [Zero α]
    (degree : ℕ) (resA resB : KBRes α) (htie : resA.correlation = resB.correlation) :
    (singleKernelSelect degree resA resB).beta = resB.beta ∧
      (singleKernelSelect degree resA resB).alpha = zeroExceptFirst degree resB.alpha ∧
      (singleKernelSelect degree resA resB).correlation = resB.correlation := by
  unfold singleKernelSelect
  rw [if_neg (by rw [htie]; exact lt_irrefl _), htie, max_self]
  exact ⟨rfl, rfl, rfl⟩

/-- Witness for `singleKernel_tie_second_branch` at the tie `5 = 5` over `ℕ`. -/
theorem singleKernel_tie_second_branch_witness :
    (singleKernelSelect 2 ⟨5, [1, 1], [7]⟩ ⟨5, [2], [3, 4]⟩ : KBRes ℕ).beta = [3, 4] ∧
      (singleKernelSelect 2 ⟨5, [1, 1], [7]⟩ ⟨5, [2], [3, 4]⟩ : KBRes ℕ).alpha =
        zeroExceptFirst 2 [2] ∧
      (singleKernelSelect 2 ⟨5, [1, 1], [7]⟩ ⟨5, [2], [3, 4]⟩ : KBRes ℕ).correlation = 5 :=
  singleKernel_tie_second_branch 2 ⟨5, [1, 1], [7]⟩ ⟨5, [2], [3, 4]⟩ rfl

/-- Claim C4: the reported correlation is the maximum of the two branch
correlations; when the a-branch wins strictly, its full `alpha` is kept and
`beta` is zero except at index 0; when the b-branch wins strictly, its full
`beta` is kept and `alpha` is zero except at index 0. -/
theorem singleKernel_max_selection {α : Type} [LinearOrder α] [Zero α]
    (degree : ℕ) (resA resB : KBRes α) :
    (singleKernelSelect degree resA resB).correlation =
        max resA.correlation resB.correlation ∧
      (resB.correlation < resA.correlation →
        (singleKernelSelect degree resA resB).alpha = resA.alpha ∧
          ∀ i, 1 ≤ i → (singleKernelSelect degree resA resB).beta.getD i 0 = 0) ∧
      (resA.correlation < resB.correlation →
        (singleKernelSelect degree resA resB).beta = resB.beta ∧
          ∀ i, 1 ≤ i → (singleKernelSelect degree resA resB).alpha.getD i 0 = 0) := by
  unfold singleKernelSelect
  by_cases h : resB.correlation < resA.correlation
  · rw [if_pos h]
    exact ⟨rfl, fun _ => ⟨rfl, fun i hi => zeroExceptFirst_getD_of_pos degree _ hi⟩,
      fun hba => absurd h (not_lt_of_lt hba)⟩
  · rw [if_neg h]
    exact ⟨rfl, fun hab => absurd hab h,
      fun _ => ⟨rfl, fun i hi => zeroExceptFirst_getD_of_pos degree _ hi⟩⟩

/-- Witness for `singleKernel_max_selection` at a strict win of the a-branch
(`7 > 5`) over `ℕ`. -/
theorem singleKernel_max_selection_witness :
    (singleKernelSelect 2 ⟨7, [1, 2], [3]⟩ ⟨5, [4], [5, 6]⟩ : KBRes ℕ).correlation = max 7 5 ∧
      (singleKernelSelect 2 ⟨7, [1, 2], [3]⟩ ⟨5, [4], [5, 6]⟩ : KBRes ℕ).alpha = [1, 2] ∧
      (singleKernelSelect 2 ⟨7, [1, 2], [3]⟩ ⟨5, [4], [5, 6]⟩ : KBRes ℕ).beta.getD 1 0 = 0 := by
  have h := singleKernel_max_selection 2 (⟨7, [1, 2], [3]⟩ : KBRes ℕ) ⟨5, [4], [5, 6]⟩
  exact ⟨h.1, (h.2.1 (by decide)).1, (h.2.1 (by decide)).2 1 (by decide)⟩

/-! ### Standardized projections and the scalar correlation
(`KernelBasedHGR._kbhgr`, lines 187-226)

The numeric backend (`src/cfair/backend`, not part of the sources) supplies
`mean`, `std` and `standardize`; they are modelled from the spec below.
Vectors are functions `Fin n → ℝ`. -/

/-- Population mean of a vector. -/
noncomputable def vmean {n : ℕ} (v : Fin n → ℝ) : ℝ := (∑ i, v i) / n

/-- Population variance (denominator `n`, no Bessel correction). -/
noncomputable def vvar {n : ℕ} (v : Fin n → ℝ) : ℝ := (∑ i, (v i - vmean v) ^ 2) / n

/-- Population standard deviation. -/
noncomputable def vstd {n : ℕ} (v : Fin n → ℝ) : ℝ := Real.sqrt (vvar v)

/-- Modelled from the spec: `backend.standardize`, the numeric-backend
standardization `(v − mean(v)) / (std(v) + ε)` (§6); the backend module is not
among the sources. -/
noncomputable def standardize {n : ℕ} (eps : ℝ) (v : Fin n → ℝ) : Fin n → ℝ :=
  fun i => (v i - vmean v) / (vstd v + eps)

/-- Embeds `correlation = backend.abs(backend.matmul(fa, gb) / backend.len(fa))`
(line 217): the absolute mean of the product of the two projections. -/
noncomputable def kbhgrCorr {n : ℕ} (fa gb : Fin n → ℝ) : ℝ := |(∑ i, fa i * gb i) / n|

/-- Population covariance of two vectors. -/
noncomputable def vcov {n : ℕ} (a b : Fin n → ℝ) : ℝ := (∑ i, (a i - vmean a) * (b i - vmean b)) / n

/-- The epsilon-perturbed Pearson coefficient: the Pearson correlation with
`eps` added to each standard-deviation denominator.  At `eps = 0` this is the
Pearson correlation coefficient of `a` and `b`. -/
noncomputable def pearsonEps {n : ℕ} (a b : Fin n → ℝ) (eps : ℝ) : ℝ :=
  vcov a b / ((vstd a + eps) * (vstd b + eps))

lemma vvar_nonneg {n : ℕ} (v : Fin n → ℝ) : 0 ≤ vvar v :=
  div_nonneg (Finset.sum_nonneg fun _ _ => sq_nonneg _) (Nat.cast_nonneg n)

lemma vstd_nonneg {n : ℕ} (v : Fin n → ℝ) : 0 ≤ vstd v := Real.sqrt_nonneg _

lemma vstd_sq {n : ℕ} (v : Fin n → ℝ) : vstd v ^ 2 = vvar v :=
  Real.sq_sqrt (vvar_nonneg v)

/-- The sum of squares of an epsilon-standardized vector is at most `n`. -/
lemma sum_sq_standardize_le {n : ℕ} (v : Fin n → ℝ) {eps : ℝ} (heps : 0 ≤ eps) :
    ∑ i, standardize eps v i ^ 2 ≤ (n : ℝ) := by
  have hsum : ∑ i, standardize eps v i ^ 2 =
      (↑n * vvar v) / (vstd v + eps) ^ 2 := by
    unfold standardize
    simp only [div_pow]
    rw [← Finset.sum_div]
    congr 1
    rcases Nat.eq_zero_or_pos n with hn | hn
    · subst hn
      simp [vvar]
    · have hn' : (n : ℝ) ≠ 0 := Nat.cast_ne_zero.mpr (Nat.pos_iff_ne_zero.mp hn)
      rw [vvar, mul_div_cancel₀ _ hn']
  rw [hsum, ← vstd_sq v]
  rcases eq_or_lt_of_le (add_nonneg (vstd_nonneg v) heps) with hz | hpos
  · rw [← hz, zero_pow (by norm_num), div_zero]
    exact Nat.cast_nonneg n
  · have hle : vstd v ^ 2 ≤ (vstd v + eps) ^ 2 :=
      pow_le_pow_left₀ (vstd_nonneg v) (le_add_of_nonneg_right heps) 2
    have hdpos : (0 : ℝ) < (vstd v + eps) ^ 2 := pow_pos hpos 2
    calc (n : ℝ) * vstd v ^ 2 / (vstd v + eps) ^ 2
        ≤ (n : ℝ) * (vstd v + eps) ^ 2 / (vstd v + eps) ^ 2 :=
          (div_le_div_iff_of_pos_right hdpos).mpr
            (mul_le_mul_of_nonneg_left hle (Nat.cast_nonneg n))
      _ = (n : ℝ) := by
          rw [mul_div_assoc, div_self (ne_of_gt hdpos), mul_one]

/-- Claim C3: for every pair of vectors entering the final standardization and
every nonnegative `eps`, the scalar correlation — the absolute mean product of
the two epsilon-standardized projections — lies in `[0, 1]`.  Every branch of
`_kbhgr` produces `fa` and `gb` by standardizing some vector (the raw input or
a kernel-times-coefficients product), so quantifying over the pre-images `x`
and `y` covers every configuration and every solver output. -/
theorem correlation_in_unit_interval {n : ℕ} (x y : Fin n → ℝ) {eps : ℝ} (heps : 0 ≤ eps) :
    0 ≤ kbhgrCorr (standardize eps x) (standardize eps y) ∧
      kbhgrCorr (standardize eps x) (standardize eps y) ≤ 1 := by
  refine ⟨abs_nonneg _, ?_⟩
  rcases Nat.eq_zero_or_pos n with hn | hn
  · subst hn
    simp [kbhgrCorr]
  · have hn' : (0 : ℝ) < n := Nat.cast_pos.mpr hn
    set fa := standardize eps x
    set gb := standardize eps y
    have hcs : (∑ i, fa i * gb i) ^ 2 ≤ (∑ i, fa i ^ 2) * ∑ i, gb i ^ 2 :=
      Finset.sum_mul_sq_le_sq_mul_sq Finset.univ fa gb
    have hfa : ∑ i, fa i ^ 2 ≤ (n : ℝ) := sum_sq_standardize_le x heps
    have hgb : ∑ i, gb i ^ 2 ≤ (n : ℝ) := sum_sq_standardize_le y heps
    have hsq : (∑ i, fa i * gb i) ^ 2 ≤ (n : ℝ) ^ 2 := by
      calc (∑ i, fa i * gb i) ^ 2 ≤ (∑ i, fa i ^ 2) * ∑ i, gb i ^ 2 := hcs
        _ ≤ (n : ℝ) * (n : ℝ) := by
            apply mul_le_mul hfa hgb (Finset.sum_nonneg fun i _ => sq_nonneg _) hn'.le
        _ = (n : ℝ) ^ 2 := (sq (n : ℝ)).symm
    have habs : |∑ i, fa i * gb i| ≤ (n : ℝ) := by
      rw [← Real.sqrt_sq_eq_abs]
      calc Real.sqrt ((∑ i, fa i * gb i) ^ 2) ≤ Real.sqrt ((n : ℝ) ^ 2) :=
            Real.sqrt_le_sqrt hsq
        _ = (n : ℝ) := Real.sqrt_sq hn'.le
    unfold kbhgrCorr
    rw [abs_div, abs_of_pos hn', div_le_one hn']
    exact habs

/-- Witness for `correlation_in_unit_interval` at `n = 2`, `x = (1, 2)`,
`y = (3, 4)`, `eps = 0`. -/
theorem correlation_in_unit_interval_witness :
    0 ≤ kbhgrCorr (standardize 0 ![(1 : ℝ), 2]) (standardize 0 ![(3 : ℝ), 4]) ∧
      kbhgrCorr (standardize 0 ![(1 : ℝ), 2]) (standardize 0 ![(3 : ℝ), 4]) ≤ 1 :=
  correlation_in_unit_interval ![(1 : ℝ), 2] ![(3 : ℝ), 4] le_rfl

/-! ### Degenerate-case resolver: both degrees equal 1
(`KernelBasedHGR._kbhgr`, lines 197-217, first branch)

When `degree_a == 1 and degree_b == 1` the source runs no optimization: it
sets `fa = backend.standardize(a)`, `gb = backend.standardize(b)`, leaves the
coefficient vectors at their initial `backend.ones(1)`, and returns the
correlation `|mean(fa·gb)|`. -/

/-- The values `_kbhgr` computes in its `degree_a == 1 and degree_b == 1`
branch: projections, coefficient vectors, and the scalar correlation. -/
structure KBOut (n : ℕ) where
  fa : Fin n → ℝ
  gb : Fin n → ℝ
  alpha : List ℝ
  beta : List ℝ
  correlation : ℝ

/-- Embeds the `degree_a == 1 and degree_b == 1` branch of `_kbhgr`. -/
noncomputable def kbhgrDegreeOne {n : ℕ} (a b : Fin n → ℝ) (eps : ℝ) : KBOut n :=
  { fa := standardize eps a,
    gb := standardize eps b,
    alpha := [1],
    beta := [1],
    correlation := kbhgrCorr (standardize eps a) (standardize eps b) }

/-- Claim C5: with both degrees equal to 1, both projections are the
epsilon-standardized input vectors, both coefficient vectors are the unit
scalar `[1]`, and the correlation equals the absolute value of the
epsilon-perturbed Pearson coefficient of `a` and `b` (the Pearson correlation
with `eps` added to each standard-deviation denominator). -/
theorem degree_one_pearson {n : ℕ} (a b : Fin n → ℝ) (eps : ℝ) :
    (kbhgrDegreeOne a b eps).fa = standardize eps a ∧
      (kbhgrDegreeOne a b eps).gb = standardize eps b ∧
      (kbhgrDegreeOne a b eps).alpha = [1] ∧
      (kbhgrDegreeOne a b eps).beta = [1] ∧
      (kbhgrDegreeOne a b eps).correlation = |pearsonEps a b eps| := by
  refine ⟨rfl, rfl, rfl, rfl, ?_⟩
  show kbhgrCorr (standardize eps a) (standardize eps b) = |pearsonEps a b eps|
  unfold kbhgrCorr pearsonEps vcov standardize
  congr 1
  have hterm : ∀ i, (a i - vmean a) / (vstd a + eps) * ((b i - vmean b) / (vstd b + eps)) =
      (a i - vmean a) * (b i - vmean b) / ((vstd a + eps) * (vstd b + eps)) :=
    fun i => div_mul_div_comm _ _ _ _
  rw [Finset.sum_congr rfl (fun i _ => hterm i), ← Finset.sum_div, div_div,
    div_div, mul_comm ((vstd a + eps) * (vstd b + eps)) (n : ℝ)]

/-! ### Constrained least-squares solver
(`KernelBasedHGR._higher_order_coefficients`, lines 141-179)

The source hands `scipy.optimize.minimize` (external collaborator) an
objective `_fun` returning value and gradient, a constant Hessian `fun_hess`,
and a `NonlinearConstraint` with `lb = ub = 1`.  Those callables are pure
functions of the reduced kernel matrices `F = f_slim`, `G = g_slim` and the
optimization point `inp`; they are embedded here and compared with the spec's
formulas. -/

/-- Embeds `alp = inp[:dx]`. -/
def alpPart {dx dy : ℕ} (inp : Fin (dx + dy) → ℝ) : Fin dx → ℝ :=
  fun j => inp (Fin.castAdd dy j)

/-- Embeds `bet = inp[dx:]`. -/
def betPart {dx dy : ℕ} (inp : Fin (dx + dy) → ℝ) : Fin dy → ℝ :=
  fun j => inp (Fin.natAdd dx j)

/-- Embeds `fg = np.concatenate((f_slim, -g_slim), axis=1)`. -/
def fgMat {n dx dy : ℕ} (F : Matrix (Fin n) (Fin dx) ℝ) (G : Matrix (Fin n) (Fin dy) ℝ) :
    Matrix (Fin n) (Fin (dx + dy)) ℝ :=
  Matrix.of fun i => Fin.append (fun j => F i j) (fun j => -G i j)

/-- Embeds `diff = f_slim @ alp - g_slim @ bet`. -/
noncomputable def lsqDiff {n dx dy : ℕ} (F : Matrix (Fin n) (Fin dx) ℝ)
    (G : Matrix (Fin n) (Fin dy) ℝ) (inp : Fin (dx + dy) → ℝ) : Fin n → ℝ :=
  F.mulVec (alpPart inp) - G.mulVec (betPart inp)

/-- Embeds the value component of `_fun`:
`obj_func + self.lasso * pen_func = diff @ diff + lasso * np.abs(inp).sum()`. -/
noncomputable def objValue {n dx dy : ℕ} (F : Matrix (Fin n) (Fin dx) ℝ)
    (G : Matrix (Fin n) (Fin dy) ℝ) (lasso : ℝ) (inp : Fin (dx + dy) → ℝ) : ℝ :=
  lsqDiff F G inp ⬝ᵥ lsqDiff F G inp + lasso * ∑ j, |inp j|

/-- Embeds the gradient component of `_fun`:
`obj_grad + self.lasso * pen_grad = 2 * fg.T @ diff + lasso * np.sign(inp)`. -/
noncomputable def objGrad {n dx dy : ℕ} (F : Matrix (Fin n) (Fin dx) ℝ)
    (G : Matrix (Fin n) (Fin dy) ℝ) (lasso : ℝ) (inp : Fin (dx + dy) → ℝ) :
    Fin (dx + dy) → ℝ :=
  fun j => 2 * (fgMat F G)ᵀ.mulVec (lsqDiff F G inp) j + lasso * Real.sign (inp j)

/-- Embeds `fun_hess = 2 * fg.T @ fg`, the constant Hessian passed as
`hess=lambda *_: fun_hess`. -/
noncomputable def funHess {n dx dy : ℕ} (F : Matrix (Fin n) (Fin dx) ℝ)
    (G : Matrix (Fin n) (Fin dy) ℝ) : Matrix (Fin (dx + dy)) (Fin (dx + dy)) ℝ :=
  (2 : ℝ) • ((fgMat F G)ᵀ * fgMat F G)

/-- Embeds the constraint function `np.var(g_slim @ inp[dx:], ddof=0)`;
`np.var` with `ddof=0` is the mean of squared deviations, i.e. `vvar`. -/
noncomputable def cstFun {n dx dy : ℕ} (G : Matrix (Fin n) (Fin dy) ℝ)
    (inp : Fin (dx + dy) → ℝ) : ℝ :=
  vvar (G.mulVec (betPart inp))

/-- The data of a `scipy.optimize.NonlinearConstraint` that claim C6 reads:
the constraint function and its bounds. -/
structure SolverConstraint (d : ℕ) where
  cfun : (Fin d → ℝ) → ℝ
  lb : ℝ
  ub : ℝ

/-- Embeds `NonlinearConstraint(fun=..., lb=1, ub=1)` from the source. -/
noncomputable def varianceConstraint {n dy : ℕ} (dx : ℕ) (G : Matrix (Fin n) (Fin dy) ℝ) :
    SolverConstraint (dx + dy) :=
  { cfun := cstFun G, lb := 1, ub := 1 }

/-- Claim C6: the objective value is `‖F·α − G·β‖² + λ·‖[α,β]‖₁`; the gradient
is `2·[F −G]ᵗ·(Fα−Gβ) + λ·sign([α,β])`, i.e. blockwise `2·Fᵀ·diff + λ·sign(α)`
on the α-block and `−2·Gᵀ·diff + λ·sign(β)` on the β-block; the constant
Hessian `2·[F −G]ᵗ·[F −G]` has blocks `2FᵀF`, `−2FᵀG`, `−2GᵀF`, `2GᵀG`; and
the equality constraint imposes `Var(G·β) = 1` with population variance
(denominator `n`). -/
theorem solver_objective_spec {n dx dy : ℕ} (F : Matrix (Fin n) (Fin dx) ℝ)
    (G : Matrix (Fin n) (Fin dy) ℝ) (lasso : ℝ) (inp : Fin (dx + dy) → ℝ) :
    objValue F G lasso inp =
        (∑ i, (lsqDiff F G inp i) ^ 2) +
          lasso * ((∑ j, |alpPart inp j|) + ∑ j, |betPart inp j|) ∧
      (∀ j : Fin dx, objGrad F G lasso inp (Fin.castAdd dy j) =
        2 * (∑ i, F i j * lsqDiff F G inp i) + lasso * Real.sign (alpPart inp j)) ∧
      (∀ j : Fin dy, objGrad F G lasso inp (Fin.natAdd dx j) =
        -(2 * ∑ i, G i j * lsqDiff F G inp i) + lasso * Real.sign (betPart inp j)) ∧
      (∀ j k : Fin dx, funHess F G (Fin.castAdd dy j) (Fin.castAdd dy k) =
        2 * ∑ i, F i j * F i k) ∧
      (∀ (j : Fin dx) (k : Fin dy), funHess F G (Fin.castAdd dy j) (Fin.natAdd dx k) =
        -(2 * ∑ i, F i j * G i k)) ∧
      (∀ (j : Fin dy) (k : Fin dx), funHess F G (Fin.natAdd dx j) (Fin.castAdd dy k) =
        -(2 * ∑ i, G i j * F i k)) ∧
      (∀ j k : Fin dy, funHess F G (Fin.natAdd dx j) (Fin.natAdd dx k) =
        2 * ∑ i, G i j * G i k) ∧
      (varianceConstraint dx G).lb = 1 ∧
      (varianceConstraint dx G).ub = 1 ∧
      (varianceConstraint dx G).cfun inp =
        (∑ i, (G.mulVec (betPart inp) i -
          (∑ i', G.mulVec (betPart inp) i') / n) ^ 2) / n := by
  refine ⟨?_, ?_, ?_, ?_, ?_, ?_, ?_, rfl, rfl, ?_⟩
  · unfold objValue
    congr 1
    · unfold Matrix.dotProduct
      exact Finset.sum_congr rfl fun i _ => (sq (lsqDiff F G inp i)).symm
    · rw [Fin.sum_univ_add]
      rfl
  · intro j
    unfold objGrad
    have h : (fgMat F G)ᵀ.mulVec (lsqDiff F G inp) (Fin.castAdd dy j) =
        ∑ i, F i j * lsqDiff F G inp i := by
      simp only [Matrix.mulVec, Matrix.transpose_apply, Matrix.dotProduct, fgMat,
        Matrix.of_apply, Fin.append_left]
    rw [h]
    rfl
  · intro j
    unfold objGrad
    have h : (fgMat F G)ᵀ.mulVec (lsqDiff F G inp) (Fin.natAdd dx j) =
        -(∑ i, G i j * lsqDiff F G inp i) := by
      simp only [Matrix.mulVec, Matrix.transpose_apply, Matrix.dotProduct, fgMat,
        Matrix.of_apply, Fin.append_right, neg_mul, Finset.sum_neg_distrib]
    rw [h, mul_neg]
    rfl
  · intro j k
    unfold funHess
    simp only [Matrix.smul_apply, Matrix.mul_apply, Matrix.transpose_apply, fgMat,
      Matrix.of_apply, Fin.append_left, smul_eq_mul]
  · intro j k
    unfold funHess
    simp only [Matrix.smul_apply, Matrix.mul_apply, Matrix.transpose_apply, fgMat,
      Matrix.of_apply, Fin.append_left, Fin.append_right, mul_neg, Finset.sum_neg_distrib,
      smul_eq_mul]
  · intro j k
    unfold funHess
    simp only [Matrix.smul_apply, Matrix.mul_apply, Matrix.transpose_apply, fgMat,
      Matrix.of_apply, Fin.append_left, Fin.append_right, neg_mul, Finset.sum_neg_distrib,
      smul_eq_mul, mul_neg]
  · intro j k
    unfold funHess
    simp only [Matrix.smul_apply, Matrix.mul_apply, Matrix.transpose_apply, fgMat,
      Matrix.of_apply, Fin.append_right, neg_mul, neg_neg, smul_eq_mul, mul_neg]
  · show cstFun G inp = _
    unfold cstFun vvar vmean
    rfl

/-! ### Indicator call protocol (`Indicator.__call__`,
`CopulaIndicator.f`/`g`, `KernelBasedHGR._f`/`_g`)

The estimator instance holds mutable state `_num_calls` and `_last_result`
(initialized to `0` and `None` in `__init__`); `__call__` checks the input
shapes with `assert` before touching that state, and a raised assertion leaves
the state untouched.  The embedding passes the state explicitly and returns
the new state together with either the `Result` or the assertion message.
The abstract subclass hook `_value` (and the semantics factor) are
collaborator outputs, passed in as parameters. -/

/-- A backend array as the shape checks see it: a shape plus flat data.
`ndim` is the number of axes and `len` the leading axis length. -/
structure PyVec (α : Type) where
  shape : List ℕ
  data : List α

def PyVec.ndim {α : Type} (v : PyVec α) : ℕ := v.shape.length

def PyVec.len {α : Type} (v : PyVec α) : ℕ := v.shape.headD 0

/-- The fields of a result record that the call protocol reads and writes
(`Indicator.Result` extended with the kernel coefficient vectors). -/
structure IndResult (α : Type) where
  a : PyVec α
  b : PyVec α
  value : α
  alpha : List α
  beta : List α
  numCall : ℕ

/-- The mutable per-instance state: `_num_calls` and `_last_result`. -/
structure IndState (α : Type) where
  numCalls : ℕ
  lastResult : Option (IndResult α)

/-- The state set by `Indicator.__init__`: no calls, no last result. -/
def initialState (α : Type) : IndState α := { numCalls := 0, lastResult := none }

/-- Embeds `Indicator.__call__`: assert both inputs are one-dimensional, then
assert equal lengths, then increment the call counter, build the result from
the `_value` output (`value`, extra coefficient fields) times the semantics
factor, store it in `_last_result` and return it.  A failed assertion
propagates before any state change. -/
def indicatorCall {α : Type} [Mul α] (st : IndState α) (a b : PyVec α)
    (value factor : α) (alpha beta : List α) :
    IndState α × Except String (IndResult α) :=
  if a.ndim = 1 ∧ b.ndim = 1 then
    if a.len = b.len then
      let res : IndResult α :=
        { a := a, b := b, value := value * factor, alpha := alpha, beta := beta,
          numCall := st.numCalls + 1 }
      ({ numCalls := st.numCalls + 1, lastResult := some res }, Except.ok res)
    else (st, Except.error "Input vectors must have the same dimension")
  else (st, Except.error "Expected vectors with one dimension")

/-- Claim C8: invoking the estimator with vectors that are not one-dimensional
or have differing lengths yields the assertion error and leaves the instance
state (both the call counter and the last-result slot) exactly as it was. -/
theorem call_shape_error_preserves_state {α : Type} [Mul α] (st : IndState α)
    (a b : PyVec α) (value factor : α) (alpha beta : List α)
    (hbad : ¬ (a.ndim = 1 ∧ b.ndim = 1 ∧ a.len = b.len)) :
    (indicatorCall st a b value factor alpha beta).1 = st ∧
      ∃ msg, (indicatorCall st a b value factor alpha beta).2 = Except.error msg := by
  unfold indicatorCall
  by_cases hdim : a.ndim = 1 ∧ b.ndim = 1
  · have hlen : ¬ a.len = b.len := fun hl => hbad ⟨hdim.1, hdim.2, hl⟩
    rw [if_pos hdim, if_neg hlen]
    exact ⟨rfl, _, rfl⟩
  · rw [if_neg hdim]
    exact ⟨rfl, _, rfl⟩

/-- Witness for `call_shape_error_preserves_state`: a two-dimensional first
input (shape `[2, 2]`) against a one-dimensional second input. -/
theorem call_shape_error_preserves_state_witness :
    (indicatorCall (initialState ℕ) ⟨[2, 2], [1, 2, 3, 4]⟩ ⟨[2], [1, 2]⟩ 0 1 [] []).1 =
        initialState ℕ ∧
      ∃ msg, (indicatorCall (initialState ℕ) ⟨[2, 2], [1, 2, 3, 4]⟩ ⟨[2], [1, 2]⟩
        0 1 [] []).2 = Except.error msg :=
  call_shape_error_preserves_state (initialState ℕ) ⟨[2, 2], [1, 2, 3, 4]⟩ ⟨[2], [1, 2]⟩
    0 1 [] [] (by decide)

/-- Mean of a list, `sum / length` (numeric-backend `mean`). -/
def lmean {α : Type} [Field α] (xs : List α) : α := xs.sum / (xs.length : α)

/-- Embeds `backend.matmul(kernel(v, degree), coef)`: row `i` of the kernel
matrix pairs `v[i]^d − mean(v^d)` for `d = 1 .. degree` with the coefficient
vector (`KernelBasedHGR.kernel` and `_f`/`_g`). -/
def kernelProj {α : Type} [Field α] (v : List α) (degree : ℕ) (coef : List α) : List α :=
  (List.range v.length).map fun i =>
    ∑ d ∈ Finset.range degree,
      (v.getD i 0 ^ (d + 1) - lmean (v.map (· ^ (d + 1)))) * coef.getD d 0

/-- Embeds `CopulaIndicator.f` over `KernelBasedHGR._f`: assert a previous
result exists, then project the given vector through the stored `alpha`. -/
def copulaF {α : Type} [Field α] (st : IndState α) (degree : ℕ) (x : List α) :
    Except String (List α) :=
  match st.lastResult with
  | none => Except.error "The indicator has not been computed yet, no transformation can be used."
  | some res => Except.ok (kernelProj x degree res.alpha)

/-- Embeds `CopulaIndicator.g` over `KernelBasedHGR._g`: as `copulaF`, with
the stored `beta`. -/
def copulaG {α : Type} [Field α] (st : IndState α) (degree : ℕ) (x : List α) :
    Except String (List α) :=
  match st.lastResult with
  | none => Except.error "The indicator has not been computed yet, no transformation can be used."
  | some res => Except.ok (kernelProj x degree res.beta)

/-- Claim C9: `f` and `g` raise exactly when no successful invocation has been
performed (`last_result` still empty) — as after construction — and, once the
state holds a result (as after any successful call), they return the
projection of the given vector through the stored coefficients without
raising. -/
theorem copula_reapply_precondition {α : Type} [Field α] [Mul α] (st : IndState α)
    (degree : ℕ) (x : List α) :
    ((copulaF st degree x).isOk = false ↔ st.lastResult = none) ∧
      ((copulaG st degree x).isOk = false ↔ st.lastResult = none) ∧
      (∀ res, st.lastResult = some res →
        copulaF st degree x = Except.ok (kernelProj x degree res.alpha) ∧
          copulaG st degree x = Except.ok (kernelProj x degree res.beta)) ∧
      (copulaF (initialState α) degree x).isOk = false ∧
      (∀ (a b : PyVec α) (value factor : α) (alpha beta : List α) st' r,
        indicatorCall st a b value factor alpha beta = (st', Except.ok r) →
          (copulaF st' degree x).isOk = true ∧ (copulaG st' degree x).isOk = true) := by
  refine ⟨?_, ?_, ?_, ?_, ?_⟩
  · unfold copulaF
    cases h : st.lastResult <;> simp [h, Except.isOk, Except.toBool]
  · unfold copulaG
    cases h : st.lastResult <;> simp [h, Except.isOk, Except.toBool]
  · intro res hres
    unfold copulaF copulaG
    rw [hres]
    exact ⟨rfl, rfl⟩
  · rfl
  · intro a b value factor alpha beta st' r hcall
    unfold indicatorCall at hcall
    by_cases hdim : a.ndim = 1 ∧ b.ndim = 1
    · rw [if_pos hdim] at hcall
      by_cases hlen : a.len = b.len
      · rw [if_pos hlen] at hcall
        have hst' : st'.lastResult.isSome := by
          have := congrArg Prod.fst hcall
          simp at this
          rw [← this]
          rfl
        cases h : st'.lastResult with
        | none => rw [h] at hst'; exact absurd hst' (by simp)
        | some res =>
          unfold copulaF copulaG
          rw [h]
          exact ⟨rfl, rfl⟩
      · rw [if_neg hlen] at hcall
        exact absurd (congrArg Prod.snd hcall) (by simp)
    · rw [if_neg hdim] at hcall
      exact absurd (congrArg Prod.snd hcall) (by simp)

/-- Witness for `copula_reapply_precondition`: before any call the
re-application fails; after one successful call on one-dimensional inputs of
equal length it returns the stored-coefficient projection. -/
theorem copula_reapply_precondition_witness :
    (copulaF (initialState ℚ) 2 [1, 2]).isOk = false ∧
      copulaF (⟨1, some ⟨⟨[2], [1, 2]⟩, ⟨[2], [3, 4]⟩, 0, [1, 1], [1], 1⟩⟩ : IndState ℚ) 2 [1, 2] =
        Except.ok (kernelProj [1, 2] 2 [1, 1]) := by
  have h0 := copula_reapply_precondition (initialState ℚ) 2 ([1, 2] : List ℚ)
  have h1 := copula_reapply_precondition
    (⟨1, some ⟨⟨[2], [1, 2]⟩, ⟨[2], [3, 4]⟩, 0, [1, 1], [1], 1⟩⟩ : IndState ℚ) 2 ([1, 2] : List ℚ)
  exact ⟨h0.2.2.2.1, (h1.2.2.1 _ rfl).1⟩

end CFair
